import Mathlib

/-!
Verification of the delta-compression and pack-writing core of `cf-git`
(a Cloudflare-Workers port of a Git implementation), following the
implementation in `src/utils/rabinFingerprint.js`, `src/utils/deltaIndex.js`,
`src/utils/createDelta.js`, `src/utils/deltaHeuristics.js` and
`src/commands/pack.js`.

JS `Buffer`s are modelled as lists of byte values (`List Nat`); bitwise JS
operators on 32-bit integers are modelled with explicit `% 2 ^ 32` masking
where the JS semantics makes them observable.  Fallible functions return
`Except DeltaError`.  Loops whose counters strictly increase are modelled by
structural recursion on an explicit iteration bound that is always chosen at
least as large as the number of iterations of the JS loop.
-/

set_option maxHeartbeats 1000000
set_option maxRecDepth 8192

deriving instance DecidableEq for Except

namespace CfGit

/-- A byte buffer: a JS `Buffer` is an ordered sequence of octets. -/
abbrev Bytes := List Nat

/-- All entries of a buffer are octets, as `Buffer` guarantees in JS. -/
def IsBytes (bs : Bytes) : Prop := ∀ b ∈ bs, b < 256

instance (bs : Bytes) : Decidable (IsBytes bs) :=
  List.decidableBAll _ bs

/-- Error cases surfaced by the core (each models one `throw` site). -/
inductive DeltaError where
  /-- `computeRabinHash`: `length` argument different from the window size. -/
  | invalidLength
  /-- `computeRabinHash`: `offset + length > buffer.length`. -/
  | invalidRange
  /-- `DeltaIndex` constructor: source longer than `MAX_INDEX_SIZE`. -/
  | sourceTooLarge
  /-- `encodeInsertInstruction`: empty INSERT payload. -/
  | insertEmpty
  /-- `encodeInsertInstruction`: INSERT payload longer than 127 bytes. -/
  | insertTooLong
deriving DecidableEq

/-! ### Rabin fingerprint (`src/utils/rabinFingerprint.js`) -/

/-- `const RABIN_WINDOW = 16`. -/
def RABIN_WINDOW : Nat := 16

/-- `const RABIN_SHIFT = 23`. -/
def RABIN_SHIFT : Nat := 23

/-- `const RABIN_MASK = (1 << RABIN_SHIFT) - 1`. -/
def RABIN_MASK : Nat := (1 <<< RABIN_SHIFT) - 1

/-- One step of the hash fold: `((hash << 8) | byte) & RABIN_MASK`.  Both in
the warm-up branch of `slide` and in `computeRabinHash` the running `hash` is
already reduced below `2 ^ 23`, so the JS 32-bit operators coincide with the
operators on `Nat` used here. -/
def rabinStep (hash byte : Nat) : Nat :=
  ((hash <<< 8) ||| byte) &&& RABIN_MASK

/-- JS `ToInt32` applied to a 32-bit bit pattern: the signed value. -/
def int32OfBits (u : Nat) : Int :=
  if u < 2 ^ 31 then (u : Int) else (u : Int) - 2 ^ 32

/-- JS `ToUint32`: the 32-bit bit pattern of an integer value. -/
def toUint32 (x : Int) : Nat := (x % (2 ^ 32 : Int)).toNat

/-- The full-window branch of `RabinFingerprint.slide`:

```js
const oldContribution = oldByte << ((RABIN_WINDOW - 1) * 8)
this.hash = (((this.hash - oldContribution) << 8) | byte) & RABIN_MASK
```

JS `<<` reduces its shift count modulo 32, so `oldByte << 120` is
`oldByte << 24`, taken as a signed 32-bit value (`int32OfBits`); the
subtraction is exact number arithmetic, and the outer `<< 8` re-enters 32-bit
space (`toUint32 _ <<< 8 % 2 ^ 32`).  The final `& RABIN_MASK` keeps the low
23 bits, which are the same for the signed value and its bit pattern. -/
def slideFullHash (hash oldByte byte : Nat) : Nat :=
  let oldContribution : Int := int32OfBits ((oldByte <<< 24) % 2 ^ 32)
  let shifted : Nat := ((toUint32 ((hash : Int) - oldContribution)) <<< 8) % 2 ^ 32
  (shifted ||| byte) &&& RABIN_MASK

/-- State of a `RabinFingerprint` object. -/
structure RabinFingerprint where
  window : Bytes
  hash : Nat
  pos : Nat
  filled : Bool
deriving DecidableEq

/-- The constructor: zeroed window, hash 0, not filled. -/
def RabinFingerprint.start : RabinFingerprint :=
  ⟨List.replicate RABIN_WINDOW 0, 0, 0, false⟩

/-- `RabinFingerprint.slide(byte)`: warm-up phase while the window is
filling, rolling update once it is full. -/
def RabinFingerprint.slide (fp : RabinFingerprint) (byte : Nat) : RabinFingerprint :=
  if !fp.filled && fp.pos < RABIN_WINDOW then
    let w := fp.window.set fp.pos byte
    let h := rabinStep fp.hash byte
    if fp.pos + 1 = RABIN_WINDOW then ⟨w, h, 0, true⟩ else ⟨w, h, fp.pos + 1, fp.filled⟩
  else
    let oldByte := fp.window.getD fp.pos 0
    ⟨fp.window.set fp.pos byte, slideFullHash fp.hash oldByte byte,
      (fp.pos + 1) % RABIN_WINDOW, fp.filled⟩

/-- Sliding a whole buffer through the fingerprint, byte by byte. -/
def slideAll (fp : RabinFingerprint) (bs : Bytes) : RabinFingerprint :=
  bs.foldl RabinFingerprint.slide fp

/-- The fold inside `computeRabinHash`:
`for i: hash = ((hash << 8) | buffer[offset + i]) & RABIN_MASK`. -/
def rabinFold (bs : Bytes) : Nat := bs.foldl rabinStep 0

/-- `computeRabinHash(buffer, offset, length)` with its two validation
throws; on success the hash is the left-to-right fold over the window. -/
def computeRabinHash (buffer : Bytes) (offset length : Nat) : Except DeltaError Nat :=
  if length ≠ RABIN_WINDOW then .error .invalidLength
  else if buffer.length < offset + length then .error .invalidRange
  else .ok (rabinFold ((buffer.drop offset).take length))

/-! ### Delta index (`src/utils/deltaIndex.js`) -/

/-- `const MAX_INDEX_SIZE = 100 * 1024 * 1024`. -/
def MAX_INDEX_SIZE : Nat := 100 * 1024 * 1024

/-- The state of a built `DeltaIndex`.  The JS hash table maps a hash to a
linked chain of `IndexEntry` offsets in insertion order; we model the whole
table as the insertion-ordered list of `(hash, offset)` pairs, a chain being
the sub-list of offsets sharing one hash (`chainFor`). -/
structure DeltaIndex where
  source : Bytes
  hashTable : List (Nat × Nat)
deriving DecidableEq

/-- The chain stored under hash value `h`: offsets in insertion order. -/
def chainFor (pairs : List (Nat × Nat)) (h : Nat) : List Nat :=
  (pairs.filter (fun p => p.1 == h)).map Prod.snd

/-- One iteration of the `_buildIndex` scan loop at index `i`: slide the
next source byte; if the window is full, append `(hash, i - RABIN_WINDOW + 1)`
(the subtraction cannot underflow, since the window is full only for
`i ≥ RABIN_WINDOW - 1`). -/
def buildStep (source : Bytes) (acc : RabinFingerprint × List (Nat × Nat)) (i : Nat) :
    RabinFingerprint × List (Nat × Nat) :=
  let fp := acc.1.slide (source.getD i 0)
  if fp.filled then (fp, acc.2 ++ [(fp.hash, i + 1 - RABIN_WINDOW)]) else (fp, acc.2)

/-- `_buildIndex()`: nothing for sources below the window size, otherwise
the scan over all source indices. -/
def buildIndexPairs (source : Bytes) : List (Nat × Nat) :=
  if source.length < RABIN_WINDOW then []
  else ((List.range source.length).foldl (buildStep source) (.start, [])).2

/-- The `DeltaIndex` constructor.  The JS non-`Buffer` check is enforced by
the type of `source` here; the size check is modelled faithfully. -/
def mkDeltaIndex (source : Bytes) : Except DeltaError DeltaIndex :=
  if MAX_INDEX_SIZE < source.length then .error .sourceTooLarge
  else .ok ⟨source, buildIndexPairs source⟩

/-- `_matchLength(source, srcPos, target, tgtPos)` counts equal bytes from
the two positions, stopping at the end of either buffer; that is the length
of the longest common prefix of the two suffixes. -/
def commonPrefixLen : Bytes → Bytes → Nat
  | a :: as, b :: bs => if a = b then commonPrefixLen as bs + 1 else 0
  | _, _ => 0

/-- `_matchLength` on buffer positions. -/
def matchLength (source : Bytes) (srcPos : Nat) (target : Bytes) (tgtPos : Nat) : Nat :=
  commonPrefixLen (source.drop srcPos) (target.drop tgtPos)

/-- One iteration of the chain walk in `findMatch`: keep the pair with the
strictly larger extension (`length > bestLength`), so ties keep the earlier
chain entry. -/
def bestStep (source target : Bytes) (tgtPos : Nat)
    (best : Option (Nat × Nat) × Nat) (offset : Nat) : Option (Nat × Nat) × Nat :=
  let length := matchLength source offset target tgtPos
  if best.2 < length then (some (offset, length), length) else best

/-- `findMatch(target, targetPos)`.  The hash computed under the bounds
guard is the in-range value of `computeRabinHash`, inlined as `rabinFold`
over the 16-byte window. -/
def findMatch (idx : DeltaIndex) (target : Bytes) (targetPos : Nat) : Option (Nat × Nat) :=
  if target.length < targetPos + RABIN_WINDOW then none
  else
    let hash := rabinFold ((target.drop targetPos).take RABIN_WINDOW)
    let chain := chainFor idx.hashTable hash
    if chain.isEmpty then none
    else
      let best := chain.foldl (bestStep idx.source target targetPos) (none, 0)
      if RABIN_WINDOW ≤ best.2 then best.1 else none

/-! ### Delta encoder (`src/utils/createDelta.js`) -/

/-- `const MIN_COPY_LENGTH = RABIN_WINDOW`. -/
def MIN_COPY_LENGTH : Nat := RABIN_WINDOW

/-- `const MAX_INSERT_LENGTH = 127`. -/
def MAX_INSERT_LENGTH : Nat := 127

/-- An instruction produced by the greedy walk of `createDelta`. -/
inductive DeltaInstr where
  | copy (srcOffset length : Nat)
  | insert (data : Bytes)
deriving DecidableEq

/-- The look-ahead test of the INSERT loop:
`nextMatch && nextMatch.length >= MIN_COPY_LENGTH`. -/
def isGoodMatch (idx : DeltaIndex) (target : Bytes) (pos : Nat) : Bool :=
  match findMatch idx target pos with
  | some m => decide (MIN_COPY_LENGTH ≤ m.2)
  | none => false

/-- The inner look-ahead loop of the INSERT branch: starting from
`insertEnd`, advance until the end of the target, a good match, or an INSERT
of `MAX_INSERT_LENGTH` bytes.  The first argument after `insertStart` bounds
the number of iterations; the JS loop performs at most
`target.length - insertEnd` of them, since `insertEnd` strictly increases
and stays below `target.length`. -/
def findInsertEnd (idx : DeltaIndex) (target : Bytes) (insertStart : Nat) :
    Nat → Nat → Nat
  | 0, insertEnd => insertEnd
  | fuel + 1, insertEnd =>
    if target.length ≤ insertEnd then insertEnd
    else if isGoodMatch idx target insertEnd then insertEnd
    else if MAX_INSERT_LENGTH ≤ insertEnd + 1 - insertStart then insertEnd + 1
    else findInsertEnd idx target insertStart fuel (insertEnd + 1)

/-- The greedy instruction walk of `createDelta` (and, with counters instead
of instructions, of `analyzeDelta`).  The first `Nat` argument bounds the
number of loop iterations; the JS loop performs at most
`target.length - pos` of them, since `pos` strictly increases. -/
def deltaWalk (idx : DeltaIndex) (target : Bytes) : Nat → Nat → List DeltaInstr
  | 0, _ => []
  | fuel + 1, pos =>
    if target.length ≤ pos then []
    else
      match findMatch idx target pos with
      | some m =>
        if MIN_COPY_LENGTH ≤ m.2 then
          .copy m.1 m.2 :: deltaWalk idx target fuel (pos + m.2)
        else
          let e := findInsertEnd idx target pos target.length (pos + 1)
          .insert ((target.drop pos).take (e - pos)) :: deltaWalk idx target fuel e
      | none =>
        let e := findInsertEnd idx target pos target.length (pos + 1)
        .insert ((target.drop pos).take (e - pos)) :: deltaWalk idx target fuel e

/-- The instruction list produced by `createDelta` for a non-empty target,
walking from position 0. -/
def createDeltaInstructions (idx : DeltaIndex) (target : Bytes) : List DeltaInstr :=
  deltaWalk idx target target.length 0

/-- The bytes an instruction contributes to the reconstructed target:
a COPY contributes the referenced source segment, an INSERT its literal
bytes. -/
def renderInstr (source : Bytes) : DeltaInstr → Bytes
  | .copy o l => (source.drop o).take l
  | .insert d => d

/-- Concatenation of the contributions of an instruction sequence. -/
def renderDelta (source : Bytes) (instrs : List DeltaInstr) : Bytes :=
  (instrs.map (renderInstr source)).flatten

/-- `writeVarInt` emits `value` in LEB128: 7 data bits per byte, low bits
first, continuation bit 0x80 on every byte but the last.  The JS code pushes
the data byte first and sets the continuation bit retroactively when another
byte follows; the emitted bytes are the same.  The first argument bounds the
iteration count (`value >>> 7` strictly decreases while nonzero). -/
def writeVarIntAux : Nat → Nat → List Nat
  | 0, value => [value &&& 0x7f]
  | fuel + 1, value =>
    if value >>> 7 = 0 then [value &&& 0x7f]
    else ((value &&& 0x7f) ||| 0x80) :: writeVarIntAux fuel (value >>> 7)

/-- `writeVarInt(opcodes, value)` as the list of bytes appended. -/
def writeVarInt (value : Nat) : List Nat := writeVarIntAux value value

/-- `encodeCopyInstruction(opcodes, offset, length)` as the list of bytes
appended: the code byte (written last in JS into a reserved slot, emitted
first in the stream) followed by the present offset and length bytes.
`code &= ~0x70` on a code byte below 256 is `code &&& 0x8f`. -/
def encodeCopyInstruction (offset length : Nat) : List Nat :=
  let b1 := if offset &&& 0xff ≠ 0 then [offset &&& 0xff] else []
  let c1 := if offset &&& 0xff ≠ 0 then 0x01 else 0
  let b2 := if offset &&& 0xff00 ≠ 0 then [(offset >>> 8) &&& 0xff] else []
  let c2 := if offset &&& 0xff00 ≠ 0 then 0x02 else 0
  let b3 := if offset &&& 0xff0000 ≠ 0 then [(offset >>> 16) &&& 0xff] else []
  let c3 := if offset &&& 0xff0000 ≠ 0 then 0x04 else 0
  let b4 := if offset &&& 0xff000000 ≠ 0 then [(offset >>> 24) &&& 0xff] else []
  let c4 := if offset &&& 0xff000000 ≠ 0 then 0x08 else 0
  let b5 := if length &&& 0xff ≠ 0 then [length &&& 0xff] else []
  let c5 := if length &&& 0xff ≠ 0 then 0x10 else 0
  let b6 := if length &&& 0xff00 ≠ 0 then [(length >>> 8) &&& 0xff] else []
  let c6 := if length &&& 0xff00 ≠ 0 then 0x20 else 0
  let b7 := if length &&& 0xff0000 ≠ 0 then [(length >>> 16) &&& 0xff] else []
  let c7 := if length &&& 0xff0000 ≠ 0 then 0x40 else 0
  let code := 0x80 ||| c1 ||| c2 ||| c3 ||| c4 ||| c5 ||| c6 ||| c7
  let code := if length = 0x10000 then code &&& 0x8f else code
  code :: (b1 ++ b2 ++ b3 ++ b4 ++ b5 ++ b6 ++ b7)

/-- `encodeInsertInstruction(opcodes, data)` with its two throws. -/
def encodeInsertInstruction (data : Bytes) : Except DeltaError (List Nat) :=
  if data.length = 0 then .error .insertEmpty
  else if MAX_INSERT_LENGTH < data.length then .error .insertTooLong
  else .ok ((data.length &&& 0x7f) :: data)

/-- Dispatch of `encodeDelta` over one instruction. -/
def encodeDeltaInstr : DeltaInstr → Except DeltaError (List Nat)
  | .copy o l => .ok (encodeCopyInstruction o l)
  | .insert d => encodeInsertInstruction d

/-- `encodeDelta(sourceSize, targetSize, instructions)`: the two varint
sizes followed by the encoded instructions. -/
def encodeDelta (sourceSize targetSize : Nat) (instructions : List DeltaInstr) :
    Except DeltaError (List Nat) := do
  let encoded ← instructions.mapM encodeDeltaInstr
  return writeVarInt sourceSize ++ writeVarInt targetSize ++ encoded.flatten

/-- `createDelta(source, target)`: empty-target short-circuit, index
construction (which may fail on oversized sources), greedy walk,
serialization. -/
def createDelta (source target : Bytes) : Except DeltaError (List Nat) :=
  if target.length = 0 then encodeDelta source.length 0 []
  else do
    let idx ← mkDeltaIndex source
    encodeDelta source.length target.length (createDeltaInstructions idx target)

/-- The record returned by `analyzeDelta`. -/
structure DeltaStats where
  sourceSize : Nat
  targetSize : Nat
  copyBytes : Nat
  insertBytes : Nat
  copyInstructions : Nat
  insertInstructions : Nat
  compressionRatio : ℚ
  totalInstructions : Nat
deriving DecidableEq

/-- The counting walk of `analyzeDelta`: the same loop as `deltaWalk`, with
the accumulator `(copyBytes, insertBytes, copyInstructions,
insertInstructions)` in place of the instruction list. -/
def analyzeWalk (idx : DeltaIndex) (target : Bytes) :
    Nat → Nat → Nat × Nat × Nat × Nat → Nat × Nat × Nat × Nat
  | 0, _, acc => acc
  | fuel + 1, pos, acc =>
    if target.length ≤ pos then acc
    else
      match findMatch idx target pos with
      | some m =>
        if MIN_COPY_LENGTH ≤ m.2 then
          analyzeWalk idx target fuel (pos + m.2)
            (acc.1 + m.2, acc.2.1, acc.2.2.1 + 1, acc.2.2.2)
        else
          let e := findInsertEnd idx target pos target.length (pos + 1)
          analyzeWalk idx target fuel e
            (acc.1, acc.2.1 + (e - pos), acc.2.2.1, acc.2.2.2 + 1)
      | none =>
        let e := findInsertEnd idx target pos target.length (pos + 1)
        analyzeWalk idx target fuel e
          (acc.1, acc.2.1 + (e - pos), acc.2.2.1, acc.2.2.2 + 1)

/-- `analyzeDelta(source, target)`. -/
def analyzeDelta (source target : Bytes) : Except DeltaError DeltaStats := do
  let idx ← mkDeltaIndex source
  let acc := analyzeWalk idx target target.length 0 (0, 0, 0, 0)
  return ⟨source.length, target.length, acc.1, acc.2.1, acc.2.2.1, acc.2.2.2,
    (acc.1 : ℚ) / (max 1 target.length : ℚ), acc.2.2.1 + acc.2.2.2⟩

/-! ### Base-selection heuristics (`src/utils/deltaHeuristics.js`) -/

/-- `const MAX_DELTA_CHAIN_DEPTH = 50`. -/
def MAX_DELTA_CHAIN_DEPTH : Nat := 50

/-- `const MIN_SIZE_FOR_DELTA = 16`. -/
def MIN_SIZE_FOR_DELTA : Nat := 16

/-- An object record handed to the pack writer: `{ oid, type, data, depth }`
(the objects built in `_packWithDelta` carry no `path` property). -/
structure PackObj where
  oid : String
  type : String
  data : Bytes
  depth : Nat
deriving DecidableEq

/-- The matching-byte count of the prefix comparison loops
(`computeSimilarityScore`, over the first `n` positions, both buffers being
at least `n` long at every call site by choice of `n`). -/
def countMatching (b t : Bytes) (n : Nat) : Nat :=
  ((b.take n).zip (t.take n)).countP (fun p => p.1 == p.2)

/-- `computeSimilarityScore(base, target)`.  JS computes with IEEE doubles;
we use exact rationals, which agree on every comparison the pack writer
performs for buffers of the sizes the index admits.  The path-similarity
branch is omitted: the pack writer objects carry no `path`, so
`base.path && target.path` is always falsy there. -/
def computeSimilarityScore (base target : PackObj) : ℚ :=
  let sizeDiff : ℚ := |((base.data.length : ℚ) - (target.data.length : ℚ))| / (target.data.length : ℚ)
  let score1 : ℚ := (1 - min sizeDiff 1) * 30
  let prefixCap : Nat := min 100 (min base.data.length target.data.length)
  let matching : Nat := countMatching base.data target.data prefixCap
  let score2 : ℚ := ((matching : ℚ) / (prefixCap : ℚ)) * 30
  let depthPenalty : ℚ := (base.depth : ℚ) / (MAX_DELTA_CHAIN_DEPTH : ℚ)
  let score4 : ℚ := (1 - depthPenalty) * 20
  score1 + score2 + score4

/-- Insert into a sorted list, before the first element the new element must
precede or ties with from the right; `le x y = true` means `x` may stay
before `y`. -/
def insertSorted (le : α → α → Bool) (x : α) : List α → List α
  | [] => [x]
  | y :: ys => if le x y then x :: y :: ys else y :: insertSorted le x ys

/-- Stable sort by a total `le`, modelling the (stable) JS
`Array.prototype.sort` with a consistent comparator. -/
def stableSort (le : α → α → Bool) : List α → List α
  | [] => []
  | x :: xs => insertSorted le x (stableSort le xs)

/-- The suitability filter of `findDeltaBase`: same type, chain depth (when
nonzero) below the cap, and sizes within a factor of 2.  JS computes
`max / min > 2.0` with doubles: for buffers admitted by the index the
comparison agrees with `2 * min < max`, with `min = 0` giving `Infinity`
(reject). -/
def suitableBase (target candidate : PackObj) : Bool :=
  (candidate.type == target.type) &&
  !(candidate.depth != 0 && decide (MAX_DELTA_CHAIN_DEPTH ≤ candidate.depth)) &&
  (decide (0 < min candidate.data.length target.data.length) &&
    decide (max candidate.data.length target.data.length ≤
      2 * min candidate.data.length target.data.length))

/-- `findDeltaBase(target, candidates)` with the default
`maxChainDepth = MAX_DELTA_CHAIN_DEPTH`: size gate, filter, scoring, stable
descending sort by score, first element. -/
def findDeltaBase (target : PackObj) (candidates : List PackObj) :
    Option (PackObj × ℚ) :=
  if target.data.length < MIN_SIZE_FOR_DELTA then none
  else
    let suitable := candidates.filter (suitableBase target)
    if suitable.isEmpty then none
    else
      (stableSort (fun a b => decide (b.2 ≤ a.2))
        (suitable.map (fun c => (c, computeSimilarityScore c target)))).head?

/-- `selectCandidateWindow(objects, currentIndex, windowSize)`:
`objects.slice(max(0, currentIndex - windowSize), currentIndex)`. -/
def selectCandidateWindow (objects : List PackObj) (currentIndex windowSize : Nat) :
    List PackObj :=
  (objects.take currentIndex).drop (currentIndex - windowSize)

/-- `shouldUseDelta(baseData, targetData, deltaData)`.  The first JS guard
compares `deltaData.length >= targetData.length * 0.5`; both sides are
integers or exact halves, so it is `2 * |delta| ≥ |target|`. -/
def shouldUseDelta (baseData targetData deltaData : Bytes) : Bool :=
  if targetData.length ≤ 2 * deltaData.length then false
  else if baseData.length ≤ deltaData.length then false
  else if deltaData.length < 100 then true
  else true

/-- The keys of a JS `Map` built by repeated `set`, in insertion order. -/
def firstOccurrences (keys : List String) : List String :=
  keys.foldl (fun acc k => if k ∈ acc then acc else acc ++ [k]) []

/-- `groupObjectsByType(objects)`: groups in first-occurrence key order,
each group in encounter order. -/
def groupObjectsByType (objects : List PackObj) : List (String × List PackObj) :=
  (firstOccurrences (objects.map PackObj.type)).map
    (fun t => (t, objects.filter (fun o => o.type == t)))

/-- The comparison the default (comparator-less) JS `Array.prototype.sort`
applies to the path keys: lexicographic on UTF-16 code units, which for the
ASCII keys in play is lexicographic on the code points. -/
def charListLt : List Char → List Char → Bool
  | [], [] => false
  | [], _ :: _ => true
  | _ :: _, [] => false
  | a :: as, b :: bs =>
    if a.val < b.val then true
    else if b.val < a.val then false
    else charListLt as bs

/-- `sortBySimilarity(objects)`: partition by `obj.path || obj.oid.slice(0, 2)`
(always the oid prefix here, there being no `path`), sort the keys
alphabetically, sort each partition by ascending payload size (stably), and
concatenate. -/
def sortBySimilarity (objects : List PackObj) : List PackObj :=
  let keys := firstOccurrences (objects.map (fun o => o.oid.take 2))
  let sortedKeys := stableSort (fun a b => !(charListLt b.data a.data)) keys
  sortedKeys.flatMap (fun k =>
    stableSort (fun a b => decide (a.data.length ≤ b.data.length))
      (objects.filter (fun o => o.oid.take 2 == k)))

/-! ### Pack writer (`src/commands/pack.js`, `_packWithDelta`) -/

/-- Which form an emitted pack entry took. -/
inductive EntryKind where
  | full
  | ofsDelta
deriving DecidableEq

/-- Instrumentation record of one emitted entry: its form, the oid it
serializes, and the byte offset of its first byte in the pack stream. -/
structure PackEntry where
  kind : EntryKind
  oid : String
  start : Nat
deriving DecidableEq

/-- The mutable state of `_packWithDelta`: the concatenated output stream,
the `packOffsets` map (as its insertion-ordered entry list), the
`processedOids` set (as its insertion-ordered element list), plus two
instrumentation fields that record what was emitted: the entry log and the
count written in the pack header. -/
structure PackState where
  out : Bytes
  packOffsets : List (String × Nat)
  processed : List String
  entries : List PackEntry
  headerCount : Nat
deriving DecidableEq

/-- JS `Map.prototype.set`: replace in place, or append a new binding. -/
def mapSet (m : List (String × Nat)) (k : String) (v : Nat) : List (String × Nat) :=
  if m.any (fun p => p.1 == k) then m.map (fun p => if p.1 == k then (k, v) else p)
  else m ++ [(k, v)]

/-- `write(byte.toString(16), hex)` for a single byte value: `Buffer.from`
with an odd-length hex string decodes to an empty buffer, so a value below
0x10 contributes no output byte. -/
def writeHexByte (v : Nat) : Bytes := if v < 16 then [] else [v]

/-- The `while (multibyte)` size-continuation loop shared by `writeObject`
and `writeOfsDelta`: 7 bits per byte, least significant first, continuation
bit on every byte with a successor.  The first argument bounds the
iterations (`length >>> 7` strictly decreases while the loop continues). -/
def sizeContBytes : Nat → Nat → Bytes
  | 0, _ => []
  | fuel + 1, length =>
    if 0x7f < length then (0x80 ||| (length &&& 0x7f)) :: sizeContBytes fuel (length >>> 7)
    else [length &&& 0x7f]

/-- Modelled from the spec: `types.js` is not part of the sources; §4.6
gives the type codes `commit=1, tree=2, blob=3, tag=4, ofs_delta=6,
ref_delta=7` placed in bits 4 to 6 of the first header byte, so the imported
`types` table holds the codes shifted left by 4. -/
def typeCode (stype : String) : Nat :=
  if stype == "commit" then 0x10
  else if stype == "tree" then 0x20
  else if stype == "blob" then 0x30
  else if stype == "tag" then 0x40
  else 0

/-- The type-and-size header bytes written by `writeObject` and
`writeOfsDelta` for type bits `typeBits` and uncompressed size `size`: the
first byte goes through the hex round-trip (`writeHexByte`), the
continuation bytes are written with `padHex(2, ...)` and survive intact. -/
def entryHeader (typeBits size : Nat) : Bytes :=
  if 0xf < size then
    writeHexByte (0x80 ||| typeBits ||| (size &&& 0xf)) ++ sizeContBytes size (size >>> 4)
  else writeHexByte (typeBits ||| (size &&& 0xf))

/-- The back-reference byte collection loop of `writeOfsDelta`: plain 7-bit
groups of `relativeOffset`, least significant group pushed first.  The first
argument bounds the iterations. -/
def ofsMoreBytes : Nat → Nat → Bytes
  | 0, _ => []
  | fuel + 1, v =>
    if v = 0 then [] else (0x80 ||| (v &&& 0x7f)) :: ofsMoreBytes fuel (v >>> 7)

/-- The back-reference bytes `writeOfsDelta` emits for `relativeOffset`:
the collected groups written in reverse order (most significant first). -/
def ofsOffsetBytes (relativeOffset : Nat) : Bytes :=
  ((relativeOffset &&& 0x7f) :: ofsMoreBytes relativeOffset (relativeOffset >>> 7)).reverse

/-- Modelled from the spec: the Git OFS_DELTA back-reference encoding (§4.6):
7-bit groups most significant first, high bit on every byte but the last,
and 1 subtracted from the remaining value before packing each non-terminal
byte.  This is the comparison point for the bytes the code writes. -/
def gitOfsMoreBytes : Nat → Nat → Bytes
  | 0, _ => []
  | fuel + 1, v =>
    if v = 0 then []
    else (0x80 ||| ((v - 1) &&& 0x7f)) :: gitOfsMoreBytes fuel ((v - 1) >>> 7)

/-- Modelled from the spec: the full Git OFS_DELTA back-reference encoding
of a strictly positive offset (see `gitOfsMoreBytes`). -/
def gitOfsDeltaEncode (n : Nat) : Bytes :=
  ((n &&& 0x7f) :: gitOfsMoreBytes n (n >>> 7)).reverse

/-- The body of `writeObject({ stype, object, oid })`: record the entry
offset under `oid` first, then emit header and deflated payload. -/
def writeObjectEntry (deflate : Bytes → Bytes) (st : PackState)
    (stype : String) (object : Bytes) (oid : String) : PackState :=
  let offset := st.out.length
  { st with
    packOffsets := mapSet st.packOffsets oid offset
    out := st.out ++ entryHeader (typeCode stype) object.length ++ deflate object
    entries := st.entries ++ [⟨.full, oid, offset⟩] }

/-- The body of `writeOfsDelta({ baseOffset, delta })`: type-and-size header
with the raw type value 6 (as in the code), back-reference bytes for
`entry_start - base_start`, deflated delta.  `packOffsets` is not touched.
The `oid` argument only feeds the instrumentation log. -/
def writeOfsDeltaEntry (deflate : Bytes → Bytes) (st : PackState)
    (baseOffset : Nat) (delta : Bytes) (oid : String) : PackState :=
  let offset := st.out.length
  let relativeOffset := offset - baseOffset
  { st with
    out := st.out ++ entryHeader 6 delta.length ++ ofsOffsetBytes relativeOffset ++
      deflate delta
    entries := st.entries ++ [⟨.ofsDelta, oid, offset⟩] }

/-- One iteration of the main emission loop of `_packWithDelta` for the
object `item.2` at position `item.1` of the ordered sequence (the JS
`target` and `i`).  The intermediate state with the oid added to
`processedOids` (the JS mutation before the base search) is written out at
each use; its `packOffsets` component is that of `st`. -/
def packStep (deflate : Bytes → Bytes) (sorted : List PackObj) (st : PackState)
    (item : Nat × PackObj) : Except DeltaError PackState :=
  if item.2.oid ∈ st.processed then .ok st
  else
    match findDeltaBase item.2 (selectCandidateWindow sorted item.1 10) with
    | some base =>
      match st.packOffsets.lookup base.1.oid with
      | some baseOffset => do
        let delta ← createDelta base.1.data item.2.data
        if shouldUseDelta base.1.data item.2.data delta then
          return writeOfsDeltaEntry deflate
            { st with processed := st.processed ++ [item.2.oid] }
            baseOffset delta item.2.oid
        else
          return writeObjectEntry deflate
            { st with processed := st.processed ++ [item.2.oid] }
            item.2.type item.2.data item.2.oid
      | none => .ok (writeObjectEntry deflate
          { st with processed := st.processed ++ [item.2.oid] }
          item.2.type item.2.data item.2.oid)
    | none => .ok (writeObjectEntry deflate
        { st with processed := st.processed ++ [item.2.oid] }
        item.2.type item.2.data item.2.oid)

/-- A 32-bit big-endian value, as `write(padHex(8, n), hex)` emits it. -/
def be32 (n : Nat) : Bytes :=
  [(n >>> 24) &&& 0xff, (n >>> 16) &&& 0xff, (n >>> 8) &&& 0xff, n &&& 0xff]

/-- `_packWithDelta` up to (excluding) the trailing checksum: objects are
assumed already read (`readObject` is an external collaborator), grouped by
type, sorted by similarity, and emitted behind the 12-byte header.
`deflate` is the external compression collaborator. -/
def packCore (deflate : Bytes → Bytes) (objects : List PackObj) :
    Except DeltaError PackState :=
  let sorted := (groupObjectsByType objects).flatMap (fun g => sortBySimilarity g.2)
  let header := [0x50, 0x41, 0x43, 0x4b] ++ [0x00, 0x00, 0x00, 0x02] ++ be32 sorted.length
  sorted.enum.foldlM (packStep deflate sorted) ⟨header, [], [], [], sorted.length⟩

/-- `_packWithDelta` including the trailer: the running content hash is an
external collaborator (`sha1`), applied to every byte emitted so far. -/
def packWithDelta (deflate sha1 : Bytes → Bytes) (objects : List PackObj) :
    Except DeltaError Bytes :=
  (packCore deflate objects).map (fun st => st.out ++ sha1 st.out)

/-! ### Verification helpers (predicates used only to state and prove the
theorems below; not part of the embedded program) -/

/-- The base-256 value of a byte sequence, most significant byte first: the
hash fold without the 23-bit mask. -/
def polyVal (bs : Bytes) : Nat := bs.foldl (fun a b => a * 256 + b) 0

/-- Invariant of a `RabinFingerprint` state after sliding `n` bytes of a
byte buffer through it. -/
def RabinInv (fp : RabinFingerprint) (n : Nat) : Prop :=
  fp.hash < 2 ^ 23 ∧ (∀ x ∈ fp.window, x < 256) ∧
    fp.filled = decide (16 ≤ n) ∧ (n < 16 → fp.pos = n)

/-- Invariant of the best-match accumulator of the `findMatch` chain walk:
either nothing has improved on the initial `(null, 0)`, or the stored match
carries the stored best length, which is the exact extension length at the
stored offset. -/
def BestInv (source target : Bytes) (tgtPos : Nat)
    (acc : Option (Nat × Nat) × Nat) : Prop :=
  (acc.1 = none ∧ acc.2 = 0) ∨
    ∃ o, acc.1 = some (o, acc.2) ∧ acc.2 = matchLength source o target tgtPos

/-- Invariant of the `_packWithDelta` loop state: `packOffsets` holds
exactly the full entries emitted so far (in emission order, at their entry
start offsets), and every recorded oid has been processed. -/
def OffsetsInvariant (st : PackState) : Prop :=
  st.packOffsets =
    (st.entries.filter (fun e => e.kind == EntryKind.full)).map (fun e => (e.oid, e.start)) ∧
  ∀ q ∈ st.packOffsets, q.1 ∈ st.processed

/-! ### Arithmetic of the hash step -/

theorem rabinStep_eq (h b : Nat) (hb : b < 256) :
    rabinStep h b = (h * 256 + b) % 2 ^ 23 := by
  unfold rabinStep RABIN_MASK RABIN_SHIFT
  have h1 : (1 <<< 23 : Nat) = 2 ^ 23 := by decide
  have h2 : h <<< 8 = 2 ^ 8 * h := by rw [Nat.shiftLeft_eq]; ring
  rw [h1, h2, ← Nat.mul_add_lt_is_or (show b < 2 ^ 8 by omega) h,
    Nat.and_pow_two_sub_one_eq_mod]
  norm_num [Nat.mul_comm]

theorem rabinStep_lt (h b : Nat) : rabinStep h b < 2 ^ 23 := by
  have : rabinStep h b ≤ RABIN_MASK := Nat.and_le_right
  exact lt_of_le_of_lt this (by decide)

theorem slideFullHash_eq (h old b : Nat) (hh : h < 2 ^ 23) (hold : old < 256) :
    slideFullHash h old b = rabinStep h b := by
  have hsh : (old <<< 24) % 2 ^ 32 = old * 2 ^ 24 := by
    rw [Nat.shiftLeft_eq, Nat.mod_eq_of_lt (by nlinarith)]
  have key : ((toUint32 ((h : Int) - int32OfBits ((old <<< 24) % 2 ^ 32))) <<< 8) % 2 ^ 32
      = h <<< 8 := by
    rw [hsh, Nat.shiftLeft_eq, Nat.shiftLeft_eq]
    unfold int32OfBits toUint32
    split <;> omega
  show (((toUint32 ((h : Int) - int32OfBits ((old <<< 24) % 2 ^ 32))) <<< 8) % 2 ^ 32
      ||| b) &&& RABIN_MASK = rabinStep h b
  rw [key]
  rfl

/-! ### The hash fold and its closed form -/

theorem foldl_poly (bs : Bytes) :
    ∀ a : Nat, bs.foldl (fun a b => a * 256 + b) a = a * 256 ^ bs.length + polyVal bs := by
  induction bs with
  | nil => intro a; simp [polyVal]
  | cons b bs ih =>
    intro a
    have hpv : polyVal (b :: bs) = b * 256 ^ bs.length + polyVal bs := by
      unfold polyVal
      simpa using ih b
    simp only [List.foldl_cons, ih, hpv, List.length_cons]
    ring

theorem polyVal_append (xs ys : Bytes) :
    polyVal (xs ++ ys) = polyVal xs * 256 ^ ys.length + polyVal ys := by
  unfold polyVal
  rw [List.foldl_append]
  exact foldl_poly ys (List.foldl (fun a b => a * 256 + b) 0 xs)

theorem foldl_rabinStep_eq (bs : Bytes) (hbs : IsBytes bs) :
    ∀ h : Nat, h < 2 ^ 23 →
      bs.foldl rabinStep h = (h * 256 ^ bs.length + polyVal bs) % 2 ^ 23 := by
  induction bs with
  | nil => intro h hh; simpa [polyVal] using (Nat.mod_eq_of_lt hh).symm
  | cons b bs ih =>
    intro h hh
    have hb : b < 256 := hbs b (List.mem_cons_self b bs)
    have hbs2 : IsBytes bs := fun x hx => hbs x (List.mem_cons_of_mem b hx)
    have hpv : polyVal (b :: bs) = b * 256 ^ bs.length + polyVal bs := by
      unfold polyVal; simpa using foldl_poly bs b
    rw [List.foldl_cons, ih hbs2 (rabinStep h b) (rabinStep_lt h b),
      rabinStep_eq h b hb]
    have hmod : ((h * 256 + b) % 2 ^ 23) * 256 ^ bs.length + polyVal bs ≡
        (h * 256 + b) * 256 ^ bs.length + polyVal bs [MOD 2 ^ 23] :=
      ((Nat.mod_modEq (h * 256 + b) (2 ^ 23)).mul_right (256 ^ bs.length)).add_right _
    rw [hmod, hpv, List.length_cons]
    congr 1
    ring

theorem rabinFold_eq_polyVal (bs : Bytes) (hbs : IsBytes bs) :
    rabinFold bs = polyVal bs % 2 ^ 23 := by
  unfold rabinFold
  rw [foldl_rabinStep_eq bs hbs 0 (by norm_num)]
  simp

theorem dvd_pow256 {n : Nat} (hn : 3 ≤ n) : (2 ^ 23 : Nat) ∣ 256 ^ n := by
  have h1 : (256 : Nat) ^ n = 2 ^ (8 * n) := by
    rw [show (256 : Nat) = 2 ^ 8 from rfl, ← pow_mul]
  rw [h1]
  exact pow_dvd_pow 2 (by omega)

theorem isBytes_append {xs ys : Bytes} (hx : IsBytes xs) (hy : IsBytes ys) :
    IsBytes (xs ++ ys) := by
  intro b hb
  rcases List.mem_append.mp hb with h | h
  · exact hx b h
  · exact hy b h

theorem isBytes_take {xs : Bytes} (hx : IsBytes xs) (n : Nat) : IsBytes (xs.take n) :=
  fun b hb => hx b (List.mem_of_mem_take hb)

theorem isBytes_drop {xs : Bytes} (hx : IsBytes xs) (n : Nat) : IsBytes (xs.drop n) :=
  fun b hb => hx b (List.mem_of_mem_drop hb)

theorem rabinFold_append (xs ys : Bytes) (hx : IsBytes xs) (hy : IsBytes ys)
    (h3 : 3 ≤ ys.length) : rabinFold (xs ++ ys) = rabinFold ys := by
  rw [rabinFold_eq_polyVal _ (isBytes_append hx hy), rabinFold_eq_polyVal _ hy,
    polyVal_append]
  obtain ⟨t, ht⟩ := dvd_pow256 h3
  rw [ht, show polyVal xs * (2 ^ 23 * t) + polyVal ys
      = polyVal ys + (polyVal xs * t) * 2 ^ 23 by ring,
    Nat.add_mul_mod_self_right]

/-! ### Fingerprint state invariant -/

theorem RABIN_WINDOW_eq : RABIN_WINDOW = 16 := rfl

theorem MIN_COPY_LENGTH_eq : MIN_COPY_LENGTH = 16 := rfl

theorem MAX_INDEX_SIZE_eq : MAX_INDEX_SIZE = 104857600 := rfl

theorem getD_lt_256 (w : Bytes) (i : Nat) (hw : ∀ x ∈ w, x < 256) :
    w.getD i 0 < 256 := by
  by_cases hi : i < w.length
  · rw [List.getD_eq_getElem?_getD, List.getElem?_eq_getElem hi]
    exact hw _ (List.getElem_mem hi)
  · rw [List.getD_eq_default _ _ (by omega)]
    norm_num

theorem set_lt_256 (w : Bytes) (i b : Nat) (hw : ∀ x ∈ w, x < 256) (hb : b < 256) :
    ∀ x ∈ w.set i b, x < 256 := by
  intro x hx
  rcases List.mem_or_eq_of_mem_set hx with h | h
  · exact hw x h
  · omega

theorem slide_inv (fp : RabinFingerprint) (n b : Nat) (hinv : RabinInv fp n)
    (hb : b < 256) :
    RabinInv (fp.slide b) (n + 1) ∧ (fp.slide b).hash = rabinStep fp.hash b := by
  obtain ⟨hh, hw, hf, hp⟩ := hinv
  by_cases h16 : 16 ≤ n
  · have hfe : fp.filled = true := by rw [hf]; simp [h16]
    have hsl : fp.slide b = ⟨fp.window.set fp.pos b,
        slideFullHash fp.hash (fp.window.getD fp.pos 0) b,
        (fp.pos + 1) % RABIN_WINDOW, fp.filled⟩ := by
      unfold RabinFingerprint.slide
      rw [if_neg (by simp [hfe])]
    have hfh : slideFullHash fp.hash (fp.window.getD fp.pos 0) b = rabinStep fp.hash b :=
      slideFullHash_eq _ _ _ hh (getD_lt_256 _ _ hw)
    rw [hsl]
    refine ⟨⟨?_, ?_, ?_, ?_⟩, ?_⟩
    · rw [hfh]; exact rabinStep_lt fp.hash b
    · exact set_lt_256 _ _ _ hw hb
    · have h2 : (16 ≤ n + 1) := by omega
      simp [hfe, h2]
    · intro hlt; exact absurd hlt (by omega)
    · exact hfh
  · have hn : n < 16 := by omega
    have hfe : fp.filled = false := by rw [hf]; simp; omega
    have hpe : fp.pos = n := hp hn
    have hcond : (!fp.filled && decide (fp.pos < RABIN_WINDOW)) = true := by
      simp [hfe, hpe, RABIN_WINDOW_eq, hn]
    by_cases hlast : n + 1 = 16
    · have hsl : fp.slide b = ⟨fp.window.set fp.pos b, rabinStep fp.hash b, 0, true⟩ := by
        unfold RabinFingerprint.slide
        rw [if_pos hcond, if_pos (by rw [hpe, RABIN_WINDOW_eq]; exact hlast)]
      rw [hsl]
      refine ⟨⟨rabinStep_lt _ _, set_lt_256 _ _ _ hw hb, ?_, ?_⟩, rfl⟩
      · have h2 : (16 ≤ n + 1) := by omega
        simp [h2]
      · intro hlt; exact absurd hlt (by omega)
    · have hsl : fp.slide b = ⟨fp.window.set fp.pos b, rabinStep fp.hash b,
          fp.pos + 1, fp.filled⟩ := by
        unfold RabinFingerprint.slide
        rw [if_pos hcond, if_neg (by rw [hpe, RABIN_WINDOW_eq]; exact hlast)]
      rw [hsl]
      refine ⟨⟨rabinStep_lt _ _, set_lt_256 _ _ _ hw hb, ?_, ?_⟩, rfl⟩
      · have h2 : ¬ (16 ≤ n + 1) := by omega
        simp [hfe, h2]
      · intro _; rw [hpe]

theorem slideAll_inv (bs : Bytes) :
    ∀ (fp : RabinFingerprint) (n : Nat), RabinInv fp n → IsBytes bs →
      RabinInv (slideAll fp bs) (n + bs.length) ∧
        (slideAll fp bs).hash = bs.foldl rabinStep fp.hash := by
  induction bs with
  | nil => intro fp n hinv _; simpa [slideAll] using hinv
  | cons b bs ih =>
    intro fp n hinv hbs
    have hb : b < 256 := hbs b (List.mem_cons_self b bs)
    have hbs2 : IsBytes bs := fun x hx => hbs x (List.mem_cons_of_mem b hx)
    obtain ⟨hinv2, hhash⟩ := slide_inv fp n b hinv hb
    have step := ih (fp.slide b) (n + 1) hinv2 hbs2
    constructor
    · have h1 : n + (b :: bs).length = n + 1 + bs.length := by simp; omega
      rw [h1]
      exact step.1
    · show (slideAll (fp.slide b) bs).hash = List.foldl rabinStep fp.hash (b :: bs)
      rw [List.foldl_cons, ← hhash]
      exact step.2

theorem start_inv : RabinInv .start 0 := by
  refine ⟨by norm_num [RabinFingerprint.start], ?_, by simp [RabinFingerprint.start], by simp [RabinFingerprint.start]⟩
  intro x hx
  simp only [RabinFingerprint.start, List.mem_replicate] at hx
  omega

theorem slideAll_hash (bs : Bytes) (hbs : IsBytes bs) :
    (slideAll .start bs).hash = rabinFold bs ∧
      (slideAll .start bs).filled = decide (16 ≤ bs.length) := by
  obtain ⟨hinv, hh⟩ := slideAll_inv bs .start 0 start_inv hbs
  exact ⟨hh, by simpa using hinv.2.2.1⟩

/-! ### Characterization of the built index -/

theorem buildIndex_fold (source : Bytes) (hbs : IsBytes source) :
    ∀ k, k ≤ source.length →
    (List.range k).foldl (buildStep source) (.start, []) =
      (slideAll .start (source.take k),
       ((List.range k).filter (fun i => decide (15 ≤ i))).map
          (fun i => (rabinFold (source.take (i + 1)), i + 1 - 16))) := by
  intro k
  induction k with
  | zero => intro _; simp [slideAll]
  | succ k ih =>
    intro hk
    have hkl : k < source.length := by omega
    rw [List.range_succ, List.foldl_append, ih (by omega), List.filter_append,
      List.map_append]
    have hget : source.getD k 0 = source[k] := by
      rw [List.getD_eq_getElem?_getD, List.getElem?_eq_getElem hkl]
      rfl
    have htake : source.take (k + 1) = source.take k ++ [source[k]] := by
      rw [List.take_succ, List.getElem?_eq_getElem hkl]
      rfl
    have hslide : slideAll .start (source.take (k + 1))
        = (slideAll .start (source.take k)).slide source[k] := by
      rw [htake]
      unfold slideAll
      rw [List.foldl_append]
      rfl
    have hlen : (source.take (k + 1)).length = k + 1 := by
      rw [List.length_take]
      omega
    have hfill : (slideAll .start (source.take (k + 1))).filled = decide (16 ≤ k + 1) := by
      have := (slideAll_hash (source.take (k + 1)) (isBytes_take hbs _)).2
      rwa [hlen] at this
    have hhash : (slideAll .start (source.take (k + 1))).hash
        = rabinFold (source.take (k + 1)) :=
      (slideAll_hash (source.take (k + 1)) (isBytes_take hbs _)).1
    simp only [List.foldl_cons, List.foldl_nil]
    unfold buildStep
    simp only [← hslide, hget, hfill, hhash, RABIN_WINDOW_eq]
    by_cases h15 : 15 ≤ k
    · have : (16 ≤ k + 1) = True := by simp; omega
      simp [h15, this]
    · have : (16 ≤ k + 1) = False := by simp; omega
      simp [h15, this]

theorem mem_buildIndexPairs (source : Bytes) (hbs : IsBytes source) (o : Nat)
    (ho : o + 16 ≤ source.length) :
    (rabinFold ((source.drop o).take 16), o) ∈ buildIndexPairs source := by
  unfold buildIndexPairs
  rw [if_neg (by rw [RABIN_WINDOW_eq]; omega)]
  rw [buildIndex_fold source hbs source.length le_rfl]
  apply List.mem_map.mpr
  refine ⟨o + 15, List.mem_filter.mpr ⟨List.mem_range.mpr (by omega), by simp⟩, ?_⟩
  have h1 : o + 15 + 1 - 16 = o := by omega
  have h2 : source.take (o + 15 + 1) = source.take o ++ (source.drop o).take 16 := by
    rw [show o + 15 + 1 = o + 16 from rfl]
    exact List.take_add source o 16
  have h3 : ((source.drop o).take 16).length = 16 := by
    rw [List.length_take, List.length_drop]
    omega
  rw [h1, h2, rabinFold_append _ _ (isBytes_take hbs _)
    (isBytes_take (isBytes_drop hbs _) _) (by omega)]

/-! ### Extension length (`_matchLength`) -/

theorem commonPrefixLen_le_left (xs ys : Bytes) : commonPrefixLen xs ys ≤ xs.length := by
  induction xs generalizing ys with
  | nil => cases ys <;> simp [commonPrefixLen]
  | cons a as ih =>
    cases ys with
    | nil => simp [commonPrefixLen]
    | cons b bs =>
      unfold commonPrefixLen
      split
      · have := ih bs
        simp
        omega
      · simp

theorem commonPrefixLen_le_right (xs ys : Bytes) : commonPrefixLen xs ys ≤ ys.length := by
  induction xs generalizing ys with
  | nil => cases ys <;> simp [commonPrefixLen]
  | cons a as ih =>
    cases ys with
    | nil => simp [commonPrefixLen]
    | cons b bs =>
      unfold commonPrefixLen
      split
      · have := ih bs
        simp
        omega
      · simp

theorem commonPrefixLen_self (xs : Bytes) : commonPrefixLen xs xs = xs.length := by
  induction xs with
  | nil => simp [commonPrefixLen]
  | cons a as ih => simp [commonPrefixLen, ih]

theorem commonPrefixLen_take_eq (xs ys : Bytes) :
    xs.take (commonPrefixLen xs ys) = ys.take (commonPrefixLen xs ys) := by
  induction xs generalizing ys with
  | nil => cases ys <;> simp [commonPrefixLen]
  | cons a as ih =>
    cases ys with
    | nil => simp [commonPrefixLen]
    | cons b bs =>
      unfold commonPrefixLen
      split
      · next hab => simp [hab, ih bs]
      · simp

theorem le_commonPrefixLen (k : Nat) :
    ∀ (xs ys : Bytes), k ≤ xs.length → xs.take k = ys.take k →
      k ≤ commonPrefixLen xs ys := by
  induction k with
  | zero => intro xs ys _ _; omega
  | succ k ih =>
    intro xs ys hk htake
    cases xs with
    | nil => simp at hk
    | cons a as =>
      cases ys with
      | nil => simp at htake
      | cons b bs =>
        simp only [List.take_succ_cons, List.cons.injEq] at htake
        obtain ⟨rfl, htk⟩ := htake
        unfold commonPrefixLen
        rw [if_pos rfl]
        have := ih as bs (by simpa using hk) htk
        omega

/-! ### The chain walk of `findMatch` -/

theorem bestStep_snd_le (source target : Bytes) (tgtPos : Nat)
    (acc : Option (Nat × Nat) × Nat) (o : Nat) :
    acc.2 ≤ (bestStep source target tgtPos acc o).2 := by
  simp only [bestStep]
  split <;> simp <;> omega

theorem bestStep_snd_ge (source target : Bytes) (tgtPos : Nat)
    (acc : Option (Nat × Nat) × Nat) (o : Nat) :
    matchLength source o target tgtPos ≤ (bestStep source target tgtPos acc o).2 := by
  simp only [bestStep]
  split
  · simp
  · next h => simp at h ⊢; omega

theorem bestFold_snd_mono (source target : Bytes) (tgtPos : Nat) (chain : List Nat) :
    ∀ acc, acc.2 ≤ (chain.foldl (bestStep source target tgtPos) acc).2 := by
  induction chain with
  | nil => intro acc; simp
  | cons o os ih =>
    intro acc
    calc acc.2 ≤ (bestStep source target tgtPos acc o).2 :=
          bestStep_snd_le source target tgtPos acc o
      _ ≤ _ := by simpa using ih (bestStep source target tgtPos acc o)

theorem bestFold_snd_ge (source target : Bytes) (tgtPos : Nat) (chain : List Nat)
    (o : Nat) (ho : o ∈ chain) (acc : Option (Nat × Nat) × Nat) :
    matchLength source o target tgtPos ≤
      (chain.foldl (bestStep source target tgtPos) acc).2 := by
  obtain ⟨l1, l2, rfl⟩ := List.append_of_mem ho
  rw [List.foldl_append, List.foldl_cons]
  calc matchLength source o target tgtPos
      ≤ (bestStep source target tgtPos (l1.foldl (bestStep source target tgtPos) acc) o).2 :=
        bestStep_snd_ge _ _ _ _ _
    _ ≤ _ := bestFold_snd_mono _ _ _ _ _

theorem bestFold_inv (source target : Bytes) (tgtPos : Nat) (chain : List Nat) :
    ∀ acc, BestInv source target tgtPos acc →
      BestInv source target tgtPos (chain.foldl (bestStep source target tgtPos) acc) := by
  induction chain with
  | nil => intro acc h; simpa using h
  | cons o os ih =>
    intro acc hacc
    rw [List.foldl_cons]
    apply ih
    simp only [bestStep]
    split
    · exact Or.inr ⟨o, rfl, rfl⟩
    · exact hacc

/-- What a returned match means: the guard held, the best length was at
least the window, and the stored length is the exact extension length at the
stored offset. -/
theorem findMatch_sound (idx : DeltaIndex) (target : Bytes) (pos : Nat)
    (m : Nat × Nat) (h : findMatch idx target pos = some m) :
    RABIN_WINDOW ≤ m.2 ∧ m.2 = matchLength idx.source m.1 target pos := by
  simp only [findMatch] at h
  split at h
  · exact absurd h (by simp)
  · set chain := chainFor idx.hashTable
      (rabinFold ((target.drop pos).take RABIN_WINDOW)) with hchain
    by_cases hemp : chain.isEmpty
    · rw [if_pos hemp] at h
      exact absurd h (by simp)
    · rw [if_neg hemp] at h
      set best := chain.foldl (bestStep idx.source target pos) (none, 0) with hbest
      have hinv : BestInv idx.source target pos best :=
        bestFold_inv idx.source target pos chain (none, 0) (Or.inl ⟨rfl, rfl⟩)
      split at h
      · next hge =>
        rcases hinv with ⟨h1, h2⟩ | ⟨o, h1, h2⟩
        · rw [h1] at h
          exact absurd h (by simp)
        · rw [h1] at h
          obtain rfl : (o, best.2) = m := by simpa using h
          exact ⟨hge, h2⟩
      · exact absurd h (by simp)

/-- C1 core: if some source window equals the target window at `p`, the walk
over the (nonempty) chain finds a best length of at least the window size. -/
theorem findMatch_complete (S T : Bytes) (o p : Nat) (hS : IsBytes S)
    (hp : p + 16 ≤ T.length) (ho : o + 16 ≤ S.length)
    (hwin : (S.drop o).take 16 = (T.drop p).take 16) :
    ∃ m : Nat × Nat, findMatch ⟨S, buildIndexPairs S⟩ T p = some m ∧ 16 ≤ m.2 ∧
      matchLength S o T p ≤ m.2 := by
  have hhash : rabinFold ((T.drop p).take RABIN_WINDOW)
      = rabinFold ((S.drop o).take 16) := by
    rw [RABIN_WINDOW_eq, hwin]
  have hmem : (rabinFold ((S.drop o).take 16), o) ∈ buildIndexPairs S :=
    mem_buildIndexPairs S hS o ho
  have hchain : o ∈ chainFor (buildIndexPairs S) (rabinFold ((T.drop p).take RABIN_WINDOW)) := by
    rw [hhash]
    unfold chainFor
    exact List.mem_map.mpr ⟨_, List.mem_filter.mpr ⟨hmem, by simp⟩, rfl⟩
  have hml : 16 ≤ matchLength S o T p := by
    unfold matchLength
    apply le_commonPrefixLen 16 _ _ (by simp; omega)
    calc (S.drop o).take 16 = (T.drop p).take 16 := hwin
      _ = (T.drop p).take 16 := rfl
  simp only [findMatch]
  rw [if_neg (by rw [RABIN_WINDOW_eq]; omega)]
  set chain := chainFor (buildIndexPairs S) (rabinFold ((T.drop p).take RABIN_WINDOW)) with hchaindef
  have hemp : ¬ chain.isEmpty = true := by
    rw [List.isEmpty_eq_false.mpr (List.ne_nil_of_mem hchain)]
    simp
  rw [if_neg hemp]
  set best := chain.foldl (bestStep S T p) (none, 0) with hbest
  have hge : 16 ≤ best.2 :=
    le_trans hml (bestFold_snd_ge S T p chain o hchain (none, 0))
  have hinv : BestInv S T p best :=
    bestFold_inv S T p chain (none, 0) (Or.inl ⟨rfl, rfl⟩)
  rw [if_pos (by rw [RABIN_WINDOW_eq]; exact hge)]
  rcases hinv with ⟨h1, h2⟩ | ⟨o2, h1, h2⟩
  · omega
  · exact ⟨(o2, best.2), h1, hge, bestFold_snd_ge S T p chain o hchain (none, 0)⟩

/-! ### Claims C2, C10, C9, C1 -/

/-- C2: rolling-hash equivalence.  After sliding the bytes `b0, ..., b(k-1)`
of a buffer (`k ≥ 16`) through a fresh `RabinFingerprint`, the fingerprint
hash equals the static `computeRabinHash` of the last 16 bytes, i.e. the
left-to-right fold `h := ((h << 8) | byte) & RABIN_MASK` over
`b(k-16) .. b(k-1)`. -/
theorem claim_C2 (bs : Bytes) (hb : IsBytes bs) (hlen : RABIN_WINDOW ≤ bs.length) :
    computeRabinHash bs (bs.length - RABIN_WINDOW) RABIN_WINDOW
      = .ok ((slideAll .start bs).hash) := by
  rw [RABIN_WINDOW_eq] at hlen
  unfold computeRabinHash
  rw [if_neg (by simp), if_neg (by rw [RABIN_WINDOW_eq]; omega)]
  congr 1
  rw [(slideAll_hash bs hb).1]
  have h2 : (bs.drop (bs.length - RABIN_WINDOW)).take RABIN_WINDOW
      = bs.drop (bs.length - 16) := by
    rw [RABIN_WINDOW_eq]
    apply List.take_of_length_le
    simp
    omega
  rw [h2]
  conv_rhs => rw [(List.take_append_drop (bs.length - 16) bs).symm]
  rw [rabinFold_append _ _ (isBytes_take hb _) (isBytes_drop hb _) (by simp; omega)]

/-- C2 witness: a concrete 16-byte buffer. -/
theorem claim_C2_witness :
    computeRabinHash (List.range 16) ((List.range 16).length - RABIN_WINDOW) RABIN_WINDOW
      = .ok ((slideAll .start (List.range 16)).hash) :=
  claim_C2 (List.range 16) (by decide) (by decide)

/-- C10: static hash closed form.  For any in-range window position,
`computeRabinHash` returns
`((buffer[offset+13] & 0x7f) << 16) | (buffer[offset+14] << 8) | buffer[offset+15]`:
the 23-bit fold depends only on the last three window bytes, and neither the
static hash nor the sliding update consults the polynomial tables. -/
theorem claim_C10 (buffer : Bytes) (offset : Nat) (hb : IsBytes buffer)
    (h : offset + RABIN_WINDOW ≤ buffer.length) :
    computeRabinHash buffer offset RABIN_WINDOW =
      .ok ((((buffer.getD (offset + 13) 0) &&& 0x7f) <<< 16) |||
           ((buffer.getD (offset + 14) 0) <<< 8) ||| (buffer.getD (offset + 15) 0)) := by
  rw [RABIN_WINDOW_eq] at h
  unfold computeRabinHash
  rw [if_neg (by simp), if_neg (by rw [RABIN_WINDOW_eq]; omega)]
  congr 1
  set w : Bytes := (buffer.drop offset).take RABIN_WINDOW with hw
  have hwlen : w.length = 16 := by
    rw [hw, RABIN_WINDOW_eq, List.length_take, List.length_drop]
    omega
  have hwb : IsBytes w := isBytes_take (isBytes_drop hb _) _
  have hd3 : (w.drop 13).length = 3 := by rw [List.length_drop, hwlen]
  obtain ⟨a, b, c, habc⟩ := List.length_eq_three.mp hd3
  have hgetw : ∀ j : Nat, j < 16 → w[j]? = buffer[offset + j]? := by
    intro j hj
    rw [hw, RABIN_WINDOW_eq, List.getElem?_take_of_lt hj, List.getElem?_drop]
  have hget : ∀ j : Nat, 13 ≤ j → j < 16 → buffer.getD (offset + j) 0 = w.getD j 0 := by
    intro j h13 hj
    rw [List.getD_eq_getElem?_getD, List.getD_eq_getElem?_getD, hgetw j hj]
  have ha : w.getD 13 0 = a := by
    have : w[13]? = (w.drop 13)[0]? := by rw [List.getElem?_drop]
    rw [List.getD_eq_getElem?_getD, this, habc]
    rfl
  have hbv : w.getD 14 0 = b := by
    have : w[14]? = (w.drop 13)[1]? := by rw [List.getElem?_drop]
    rw [List.getD_eq_getElem?_getD, this, habc]
    rfl
  have hc : w.getD 15 0 = c := by
    have : w[15]? = (w.drop 13)[2]? := by rw [List.getElem?_drop]
    rw [List.getD_eq_getElem?_getD, this, habc]
    rfl
  have hab : a < 256 := hwb a (List.mem_of_mem_drop (by rw [habc]; simp : a ∈ w.drop 13))
  have hbb : b < 256 := hwb b (List.mem_of_mem_drop (by rw [habc]; simp : b ∈ w.drop 13))
  have hcb : c < 256 := hwb c (List.mem_of_mem_drop (by rw [habc]; simp : c ∈ w.drop 13))
  rw [hget 13 (by omega) (by omega), hget 14 (by omega) (by omega),
    hget 15 (by omega) (by omega), ha, hbv, hc]
  have hfold : rabinFold w = polyVal w % 2 ^ 23 := rabinFold_eq_polyVal w hwb
  have hsplit : polyVal w = polyVal (w.take 13) * 256 ^ 3 + (a * 65536 + b * 256 + c) := by
    conv_lhs => rw [(List.take_append_drop 13 w).symm]
    rw [polyVal_append, habc]
    have hl3 : ([a, b, c] : Bytes).length = 3 := rfl
    have hpv3 : polyVal [a, b, c] = a * 65536 + b * 256 + c := by
      show (((0 * 256 + a) * 256 + b) * 256 + c) = a * 65536 + b * 256 + c
      ring
    rw [hl3, hpv3]
  have hc8 : (2 : Nat) ^ 8 = 256 := by norm_num
  have hc16 : (2 : Nat) ^ 16 = 65536 := by norm_num
  have hrhs : (((a &&& 0x7f) <<< 16) ||| (b <<< 8) ||| c)
      = a % 128 * 65536 + b * 256 + c := by
    have h7f : (0x7f : Nat) = 2 ^ 7 - 1 := rfl
    rw [h7f, Nat.and_pow_two_sub_one_eq_mod]
    have h1 : (a % 128) <<< 16 = 2 ^ 16 * (a % 128) := by rw [Nat.shiftLeft_eq]; ring
    have h2 : b <<< 8 = 2 ^ 8 * b := by rw [Nat.shiftLeft_eq]; ring
    rw [h1, h2, ← Nat.mul_add_lt_is_or (show 2 ^ 8 * b < 2 ^ 16 by rw [hc8, hc16]; omega) (a % 128)]
    have h3 : 2 ^ 16 * (a % 128) + 2 ^ 8 * b = 2 ^ 8 * (2 ^ 8 * (a % 128) + b) := by ring
    rw [h3, ← Nat.mul_add_lt_is_or (show c < 2 ^ 8 by rw [hc8]; omega) (2 ^ 8 * (a % 128) + b)]
    rw [hc8]
    omega
  rw [hfold, hsplit, hrhs]
  have e1 : (256 : Nat) ^ 3 = 16777216 := by norm_num
  have e2 : (2 : Nat) ^ 23 = 8388608 := by norm_num
  rw [e1, e2]
  omega

/-- C10 witness: the window `0, 1, ..., 15`. -/
theorem claim_C10_witness :
    computeRabinHash (List.range 16) 0 RABIN_WINDOW =
      .ok (((((List.range 16).getD (0 + 13) 0) &&& 0x7f) <<< 16) |||
           (((List.range 16).getD (0 + 14) 0) <<< 8) ||| ((List.range 16).getD (0 + 15) 0)) :=
  claim_C10 (List.range 16) 0 (by decide) (by decide)

/-- C9: index construction and small-source behaviour.  Construction fails
with `SourceTooLarge` above 100 MiB (the non-`Buffer` `InvalidInput` case is
excluded by the argument type of the embedding); below the window size the
table is empty and every lookup misses; at exactly 100 MiB construction
succeeds. -/
theorem claim_C9 (S : Bytes) :
    (MAX_INDEX_SIZE < S.length → mkDeltaIndex S = .error .sourceTooLarge) ∧
    (S.length < RABIN_WINDOW →
      mkDeltaIndex S = .ok ⟨S, []⟩ ∧ ∀ (T : Bytes) (p : Nat), findMatch ⟨S, []⟩ T p = none) ∧
    (S.length = MAX_INDEX_SIZE → mkDeltaIndex S = .ok ⟨S, buildIndexPairs S⟩) := by
  refine ⟨fun h => ?_, fun h => ⟨?_, ?_⟩, fun h => ?_⟩
  · unfold mkDeltaIndex
    rw [if_pos h]
  · unfold mkDeltaIndex
    rw [if_neg (by rw [MAX_INDEX_SIZE_eq]; rw [RABIN_WINDOW_eq] at h; omega)]
    unfold buildIndexPairs
    rw [if_pos h]
  · intro T p
    simp [findMatch, chainFor]
  · unfold mkDeltaIndex
    rw [if_neg (by omega)]

/-- C9 witness: a 100 MiB + 1 source, a 1-byte source with a failed lookup,
and an exactly 100 MiB source. -/
theorem claim_C9_witness :
    mkDeltaIndex (List.replicate (MAX_INDEX_SIZE + 1) 0) = .error .sourceTooLarge ∧
    (mkDeltaIndex [0] = .ok ⟨[0], []⟩ ∧ findMatch ⟨[0], []⟩ [1, 2] 0 = none) ∧
    mkDeltaIndex (List.replicate MAX_INDEX_SIZE 0)
      = .ok ⟨List.replicate MAX_INDEX_SIZE 0, buildIndexPairs (List.replicate MAX_INDEX_SIZE 0)⟩ :=
  ⟨(claim_C9 (List.replicate (MAX_INDEX_SIZE + 1) 0)).1 (by simp),
   ⟨((claim_C9 [0]).2.1 (by decide)).1, ((claim_C9 [0]).2.1 (by decide)).2 [1, 2] 0⟩,
   (claim_C9 (List.replicate MAX_INDEX_SIZE 0)).2.2 (by simp)⟩

/-- C1: index completeness.  For a byte source of admissible size and any
target position whose 16-byte window occurs somewhere in the source, the
constructed index finds a non-null match of length at least the window
size. -/
theorem claim_C1 (S T : Bytes) (o p : Nat) (hS : IsBytes S) (hT : IsBytes T)
    (hlen : RABIN_WINDOW ≤ S.length) (hmax : S.length ≤ MAX_INDEX_SIZE)
    (hp : p + RABIN_WINDOW ≤ T.length) (ho : o + RABIN_WINDOW ≤ S.length)
    (hwin : (S.drop o).take RABIN_WINDOW = (T.drop p).take RABIN_WINDOW) :
    mkDeltaIndex S = .ok ⟨S, buildIndexPairs S⟩ ∧
    (findMatch ⟨S, buildIndexPairs S⟩ T p).isSome = true ∧
    RABIN_WINDOW ≤ ((findMatch ⟨S, buildIndexPairs S⟩ T p).getD (0, 0)).2 := by
  rw [RABIN_WINDOW_eq] at hp ho hwin ⊢
  obtain ⟨m, hm, h16, _⟩ := findMatch_complete S T o p hS hp ho hwin
  refine ⟨?_, ?_, ?_⟩
  · unfold mkDeltaIndex
    rw [if_neg (by omega)]
  · rw [hm]
    rfl
  · rw [hm]
    simpa using h16

/-- C1 witness: source and target both the constant window `7^16`. -/
theorem claim_C1_witness :
    mkDeltaIndex (List.replicate 16 7)
      = .ok ⟨List.replicate 16 7, buildIndexPairs (List.replicate 16 7)⟩ ∧
    (findMatch ⟨List.replicate 16 7, buildIndexPairs (List.replicate 16 7)⟩
      (List.replicate 16 7) 0).isSome = true ∧
    RABIN_WINDOW ≤ ((findMatch ⟨List.replicate 16 7, buildIndexPairs (List.replicate 16 7)⟩
      (List.replicate 16 7) 0).getD (0, 0)).2 :=
  claim_C1 (List.replicate 16 7) (List.replicate 16 7) 0 0 (by decide) (by decide)
    (by decide) (by decide) (by decide) (by decide) (by decide)

/-! ### The greedy walk -/

theorem renderDelta_nil (s : Bytes) : renderDelta s [] = [] := rfl

theorem renderDelta_cons (s : Bytes) (i : DeltaInstr) (l : List DeltaInstr) :
    renderDelta s (i :: l) = renderInstr s i ++ renderDelta s l := by
  simp [renderDelta]

theorem findInsertEnd_ge (idx : DeltaIndex) (target : Bytes) (s : Nat) :
    ∀ fuel e, e ≤ findInsertEnd idx target s fuel e := by
  intro fuel
  induction fuel with
  | zero => intro e; rw [findInsertEnd]
  | succ fuel ih =>
    intro e
    rw [findInsertEnd]
    split
    · exact le_rfl
    split
    · exact le_rfl
    split
    · omega
    · have := ih (e + 1)
      omega

theorem findInsertEnd_le (idx : DeltaIndex) (target : Bytes) (s : Nat) :
    ∀ fuel e, e ≤ target.length → findInsertEnd idx target s fuel e ≤ target.length := by
  intro fuel
  induction fuel with
  | zero => intro e he; rw [findInsertEnd]; exact he
  | succ fuel ih =>
    intro e he
    rw [findInsertEnd]
    split
    · exact he
    split
    · exact he
    next hlen _ =>
      split
      · omega
      · exact ih (e + 1) (by omega)

theorem deltaWalk_done (idx : DeltaIndex) (target : Bytes) (fuel pos : Nat)
    (h : target.length ≤ pos) : deltaWalk idx target fuel pos = [] := by
  cases fuel with
  | zero => rw [deltaWalk]
  | succ fuel => rw [deltaWalk, if_pos h]

/-- The take-for-take reading of `findMatch` soundness: the referenced
source segment agrees byte for byte with the target at the match
position. -/
theorem findMatch_take_eq (idx : DeltaIndex) (target : Bytes) (pos : Nat)
    (m : Nat × Nat) (h : findMatch idx target pos = some m) :
    (idx.source.drop m.1).take m.2 = (target.drop pos).take m.2 := by
  obtain ⟨_, hml⟩ := findMatch_sound idx target pos m h
  rw [hml]
  exact commonPrefixLen_take_eq _ _

/-- C3 core: the concatenated contributions of the walk from `pos` cover
exactly the target from `pos` on. -/
theorem deltaWalk_render (idx : DeltaIndex) (target : Bytes) :
    ∀ fuel pos, target.length ≤ pos + fuel →
      renderDelta idx.source (deltaWalk idx target fuel pos) = target.drop pos := by
  intro fuel
  induction fuel with
  | zero =>
    intro pos h
    rw [deltaWalk, renderDelta_nil]
    exact (List.drop_eq_nil_of_le (by omega)).symm
  | succ fuel ih =>
    intro pos h
    by_cases hpos : target.length ≤ pos
    · rw [deltaWalk_done idx target _ pos hpos, renderDelta_nil]
      exact (List.drop_eq_nil_of_le hpos).symm
    · cases hfm : findMatch idx target pos with
      | some m =>
        obtain ⟨h16, hml⟩ := findMatch_sound idx target pos m hfm
        rw [RABIN_WINDOW_eq] at h16
        rw [deltaWalk, if_neg hpos, hfm]
        dsimp only
        rw [if_pos (show MIN_COPY_LENGTH ≤ m.2 by rw [MIN_COPY_LENGTH_eq]; exact h16)]
        rw [renderDelta_cons]
        show (idx.source.drop m.1).take m.2 ++ _ = _
        rw [findMatch_take_eq idx target pos m hfm, ih (pos + m.2) (by omega)]
        exact List.drop_take_append_drop target pos m.2
      | none =>
        rw [deltaWalk, if_neg hpos, hfm]
        dsimp only
        have hge : pos + 1 ≤ findInsertEnd idx target pos target.length (pos + 1) :=
          findInsertEnd_ge idx target pos target.length (pos + 1)
        rw [renderDelta_cons]
        show (target.drop pos).take (findInsertEnd idx target pos target.length (pos + 1) - pos)
            ++ _ = _
        rw [ih (findInsertEnd idx target pos target.length (pos + 1)) (by omega)]
        have he : pos + (findInsertEnd idx target pos target.length (pos + 1) - pos)
            = findInsertEnd idx target pos target.length (pos + 1) := by omega
        conv_lhs => rw [show target.drop (findInsertEnd idx target pos target.length (pos + 1))
          = target.drop (pos + (findInsertEnd idx target pos target.length (pos + 1) - pos))
          from by rw [he]]
        exact List.drop_take_append_drop target pos _

/-- C3 core for `analyzeDelta`: the counting walk accumulates exactly the
target length into `copyBytes + insertBytes`. -/
theorem analyzeWalk_sum (idx : DeltaIndex) (target : Bytes) :
    ∀ fuel pos (acc : Nat × Nat × Nat × Nat), target.length ≤ pos + fuel →
      (analyzeWalk idx target fuel pos acc).1 + (analyzeWalk idx target fuel pos acc).2.1
        = acc.1 + acc.2.1 + (target.length - pos) := by
  intro fuel
  induction fuel with
  | zero =>
    intro pos acc h
    rw [analyzeWalk]
    omega
  | succ fuel ih =>
    intro pos acc h
    by_cases hpos : target.length ≤ pos
    · rw [analyzeWalk, if_pos hpos]
      omega
    · cases hfm : findMatch idx target pos with
      | some m =>
        obtain ⟨h16, hml⟩ := findMatch_sound idx target pos m hfm
        rw [RABIN_WINDOW_eq] at h16
        have hub : m.2 ≤ target.length - pos := by
          rw [hml]
          unfold matchLength
          have := commonPrefixLen_le_right (idx.source.drop m.1) (target.drop pos)
          simp only [List.length_drop] at this
          omega
        rw [analyzeWalk, if_neg hpos, hfm]
        dsimp only
        rw [if_pos (show MIN_COPY_LENGTH ≤ m.2 by rw [MIN_COPY_LENGTH_eq]; exact h16)]
        rw [ih (pos + m.2) _ (by omega)]
        simp only []
        omega
      | none =>
        rw [analyzeWalk, if_neg hpos, hfm]
        dsimp only
        have hge : pos + 1 ≤ findInsertEnd idx target pos target.length (pos + 1) :=
          findInsertEnd_ge idx target pos target.length (pos + 1)
        have hle : findInsertEnd idx target pos target.length (pos + 1) ≤ target.length :=
          findInsertEnd_le idx target pos target.length (pos + 1) (by omega)
        rw [ih (findInsertEnd idx target pos target.length (pos + 1)) _ (by omega)]
        simp only []
        omega

/-- C4 core: every COPY the walk emits has length at least the window and at
most the target length. -/
theorem deltaWalk_copy_bounds (idx : DeltaIndex) (target : Bytes) :
    ∀ fuel pos o l, DeltaInstr.copy o l ∈ deltaWalk idx target fuel pos →
      16 ≤ l ∧ l ≤ target.length := by
  intro fuel
  induction fuel with
  | zero =>
    intro pos o l hmem
    rw [deltaWalk] at hmem
    simp at hmem
  | succ fuel ih =>
    intro pos o l hmem
    by_cases hpos : target.length ≤ pos
    · rw [deltaWalk_done idx target _ pos hpos] at hmem
      simp at hmem
    · cases hfm : findMatch idx target pos with
      | some m =>
        obtain ⟨h16, hml⟩ := findMatch_sound idx target pos m hfm
        rw [RABIN_WINDOW_eq] at h16
        rw [deltaWalk, if_neg hpos, hfm] at hmem
        dsimp only at hmem
        rw [if_pos (show MIN_COPY_LENGTH ≤ m.2 by rw [MIN_COPY_LENGTH_eq]; exact h16)] at hmem
        rcases List.mem_cons.mp hmem with heq | htail
        · obtain ⟨rfl, rfl⟩ : o = m.1 ∧ l = m.2 := by
            injection heq with h1 h2
            exact ⟨h1, h2⟩
          refine ⟨h16, ?_⟩
          rw [hml]
          unfold matchLength
          have := commonPrefixLen_le_right (idx.source.drop m.1) (target.drop pos)
          simp only [List.length_drop] at this
          omega
        · exact ih _ o l htail
      | none =>
        rw [deltaWalk, if_neg hpos, hfm] at hmem
        dsimp only at hmem
        rcases List.mem_cons.mp hmem with heq | htail
        · exact absurd heq (by simp)
        · exact ih _ o l htail

theorem except_ok_bind {ε α β : Type} (a : α) (f : α → Except ε β) :
    (Except.ok a >>= f : Except ε β) = f a := rfl

/-! ### Claims C3 and C4 -/

/-- C3: encoder-side reconstruction.  For any admissible source, the
instruction sequence of the greedy walk covers the target exactly: the
concatenation of the COPY-referenced source segments and the INSERT
literals, in emission order, is the target; and `analyzeDelta` reports
`copyBytes + insertBytes = targetSize`. -/
theorem claim_C3 (source target : Bytes) (hs : source.length ≤ MAX_INDEX_SIZE) :
    mkDeltaIndex source = .ok ⟨source, buildIndexPairs source⟩ ∧
    renderDelta source (createDeltaInstructions ⟨source, buildIndexPairs source⟩ target)
      = target ∧
    ∀ st : DeltaStats, analyzeDelta source target = .ok st →
      st.copyBytes + st.insertBytes = target.length := by
  have hmk : mkDeltaIndex source = .ok ⟨source, buildIndexPairs source⟩ := by
    unfold mkDeltaIndex
    rw [if_neg (by omega)]
  refine ⟨hmk, ?_, ?_⟩
  · have := deltaWalk_render ⟨source, buildIndexPairs source⟩ target target.length 0
      (by omega)
    simpa [createDeltaInstructions] using this
  · intro st hst
    unfold analyzeDelta at hst
    rw [hmk, except_ok_bind] at hst
    dsimp only at hst
    rw [show ∀ b : DeltaStats, (pure b : Except DeltaError DeltaStats) = Except.ok b
      from fun b => rfl] at hst
    injection hst with h
    rw [← h]
    have hsum := analyzeWalk_sum ⟨source, buildIndexPairs source⟩ target
      target.length 0 (0, 0, 0, 0) (by omega)
    simpa using hsum

/-- C3 witness: a 20-byte constant source and target. -/
theorem claim_C3_witness :
    mkDeltaIndex (List.replicate 20 1)
      = .ok ⟨List.replicate 20 1, buildIndexPairs (List.replicate 20 1)⟩ ∧
    renderDelta (List.replicate 20 1)
      (createDeltaInstructions ⟨List.replicate 20 1, buildIndexPairs (List.replicate 20 1)⟩
        (List.replicate 20 1)) = List.replicate 20 1 :=
  ⟨(claim_C3 (List.replicate 20 1) (List.replicate 20 1) (by decide)).1,
   (claim_C3 (List.replicate 20 1) (List.replicate 20 1) (by decide)).2.1⟩

/-- C4 (amended): every COPY instruction produced by the greedy walk has
length at least `MIN_COPY_LENGTH = 16` and at most the target length; the
length is the full greedy match length and is not capped at 0x10000. -/
theorem claim_C4_amended (idx : DeltaIndex) (target : Bytes) (o l : Nat)
    (hmem : DeltaInstr.copy o l ∈ createDeltaInstructions idx target) :
    MIN_COPY_LENGTH ≤ l ∧ l ≤ target.length := by
  rw [MIN_COPY_LENGTH_eq]
  exact deltaWalk_copy_bounds idx target target.length 0 o l hmem

/-- C4 amended witness: the single COPY of a 20-byte identical pair. -/
theorem claim_C4_witness :
    MIN_COPY_LENGTH ≤ 20 ∧ 20 ≤ (List.replicate 20 1 : Bytes).length :=
  claim_C4_amended ⟨List.replicate 20 1, buildIndexPairs (List.replicate 20 1)⟩
    (List.replicate 20 1) 0 20 (by decide)

/-- C4 counterexample: on a 65537-byte source equal to the target, the walk
emits a single COPY of length 65537 > 0x10000 — `createDelta` does not cap
COPY lengths at 0x10000. -/
theorem claim_C4_counterexample :
    mkDeltaIndex (List.replicate 65537 0)
      = .ok ⟨List.replicate 65537 0, buildIndexPairs (List.replicate 65537 0)⟩ ∧
    createDeltaInstructions
      ⟨List.replicate 65537 0, buildIndexPairs (List.replicate 65537 0)⟩
      (List.replicate 65537 0) = [DeltaInstr.copy 0 65537] ∧
    0x10000 < 65537 := by
  set L : Bytes := List.replicate 65537 0 with hL
  have hlen : L.length = 65537 := List.length_replicate 65537 0
  have hbytes : IsBytes L := by
    intro b hb
    rw [hL] at hb
    rw [List.eq_of_mem_replicate hb]
    norm_num
  have hfm : findMatch ⟨L, buildIndexPairs L⟩ L 0 = some (0, 65537) := by
    obtain ⟨m, hm, h16, hlow⟩ := findMatch_complete L L 0 0 hbytes
      (by omega) (by omega) rfl
    obtain ⟨h16b, hml⟩ := findMatch_sound _ _ _ m hm
    have hml0 : matchLength L 0 L 0 = 65537 := by
      unfold matchLength
      rw [List.drop_zero, commonPrefixLen_self, hlen]
    have hml2 : m.2 = commonPrefixLen (L.drop m.1) (L.drop 0) := hml
    have hub : m.2 ≤ 65537 - m.1 := by
      rw [hml2]
      have := commonPrefixLen_le_left (L.drop m.1) (L.drop 0)
      simp only [List.length_drop, hlen] at this
      omega
    rw [hml0] at hlow
    obtain ⟨o1, l1⟩ := m
    simp only [] at hlow hub
    obtain rfl : o1 = 0 := by omega
    obtain rfl : l1 = 65537 := by omega
    exact hm
  refine ⟨?_, ?_, by norm_num⟩
  · unfold mkDeltaIndex
    rw [if_neg (by rw [MAX_INDEX_SIZE_eq, hlen]; omega)]
  · unfold createDeltaInstructions
    rw [hlen]
    show deltaWalk ⟨L, buildIndexPairs L⟩ L (65536 + 1) 0 = [DeltaInstr.copy 0 65537]
    rw [deltaWalk, if_neg (by omega), hfm]
    dsimp only
    rw [if_pos (by rw [MIN_COPY_LENGTH_eq]; omega : MIN_COPY_LENGTH ≤ (((0 : Nat), (65537 : Nat))).2)]
    rw [deltaWalk_done _ _ _ _ (by omega)]

/-! ### Claims C5 and C6 -/

/-- C5 counterexample: a 50-byte delta against a 200-byte target satisfies
the first accept condition and is under 100 bytes, yet `shouldUseDelta`
returns `false`, because the base-size check `delta.length >= base.length`
runs before the small-delta rule (base only 10 bytes here). -/
theorem claim_C5_counterexample :
    shouldUseDelta (List.replicate 10 0) (List.replicate 200 0) (List.replicate 50 0)
      = false ∧
    (List.replicate 50 (0 : Nat)).length < 100 ∧
    2 * (List.replicate 50 (0 : Nat)).length < (List.replicate 200 (0 : Nat)).length := by
  decide

/-- C5 (amended): `shouldUseDelta` accepts exactly when the delta is under
half the target size and strictly smaller than the base.  Both rejection
checks run before the small-delta branch, so a delta under 100 bytes is
still rejected when it is at least as long as the base; the small-delta
branch never changes the outcome. -/
theorem claim_C5_amended (baseData targetData deltaData : Bytes) :
    shouldUseDelta baseData targetData deltaData = true ↔
      2 * deltaData.length < targetData.length ∧
        deltaData.length < baseData.length := by
  unfold shouldUseDelta
  split
  · next h => simp; omega
  · next h =>
    split
    · next h2 => simp; omega
    · next h2 =>
      split
      · next h3 => simp; omega
      · simp; omega

/-- C6: the back-reference bytes of `writeOfsDelta`.  The code emits plain
7-bit groups without the Git minus-one adjustment on non-terminal bytes
(`gitOfsDeltaEncode`, modelled from the spec): the encodings agree only
below 128, and at `relativeOffset = 128` the code writes `0x81 0x00`, which
the Git decoding reads as 256, instead of `0x80 0x00`. -/
theorem claim_C6_bug :
    ofsOffsetBytes 128 = [0x81, 0x00] ∧
    gitOfsDeltaEncode 128 = [0x80, 0x00] ∧
    ofsOffsetBytes 128 ≠ gitOfsDeltaEncode 128 ∧
    (∀ n : Nat, n < 128 → ofsOffsetBytes n = gitOfsDeltaEncode n) := by
  decide

/-! ### Pack-writer state invariant (claims C7 and C8) -/

theorem except_error_bind {ε α β : Type} (e : ε) (f : α → Except ε β) :
    (Except.error e >>= f : Except ε β) = Except.error e := rfl

theorem except_pure_eq_ok {ε α : Type} (a : α) :
    (pure a : Except ε α) = Except.ok a := rfl

theorem foldlM_except_inv {σ α ε : Type} (P : σ → Prop) (f : σ → α → Except ε σ)
    (hf : ∀ s a s2, P s → f s a = .ok s2 → P s2) :
    ∀ (l : List α) (s s2 : σ), P s → l.foldlM f s = .ok s2 → P s2 := by
  intro l
  induction l with
  | nil =>
    intro s s2 hP h
    rw [List.foldlM_nil, except_pure_eq_ok] at h
    injection h with h
    rw [← h]
    exact hP
  | cons a l ih =>
    intro s s2 hP h
    rw [List.foldlM_cons] at h
    cases hfa : f s a with
    | error e =>
      rw [hfa, except_error_bind] at h
      exact absurd h (by simp)
    | ok s1 =>
      rw [hfa, except_ok_bind] at h
      exact ih s1 s2 (hf s a s1 hP hfa) h

theorem writeObjectEntry_inv (deflate : Bytes → Bytes) (st : PackState)
    (stype : String) (object : Bytes) (oid : String)
    (hP : OffsetsInvariant st) (hmem : oid ∈ st.processed)
    (hnew : ∀ q ∈ st.packOffsets, q.1 ≠ oid) :
    OffsetsInvariant (writeObjectEntry deflate st stype object oid) := by
  obtain ⟨h1, h2⟩ := hP
  have hms : mapSet st.packOffsets oid st.out.length
      = st.packOffsets ++ [(oid, st.out.length)] := by
    unfold mapSet
    rw [if_neg]
    simp only [List.any_eq_true, not_exists]
    intro q
    intro hcontra
    exact hnew q hcontra.1 (by simpa using hcontra.2)
  have hproj1 : (writeObjectEntry deflate st stype object oid).packOffsets
      = st.packOffsets ++ [(oid, st.out.length)] := hms
  have hproj2 : (writeObjectEntry deflate st stype object oid).entries
      = st.entries ++ [(⟨EntryKind.full, oid, st.out.length⟩ : PackEntry)] := rfl
  have hproj3 : (writeObjectEntry deflate st stype object oid).processed
      = st.processed := rfl
  constructor
  · rw [hproj1, hproj2, List.filter_append, List.map_append, h1]
    congr 1
  · intro q hq
    rw [hproj1] at hq
    rw [hproj3]
    rcases List.mem_append.mp hq with hold | hnewq
    · exact h2 q hold
    · simp only [List.mem_singleton] at hnewq
      rw [hnewq]
      exact hmem

theorem writeOfsDeltaEntry_inv (deflate : Bytes → Bytes) (st : PackState)
    (baseOffset : Nat) (delta : Bytes) (oid : String)
    (hP : OffsetsInvariant st) :
    OffsetsInvariant (writeOfsDeltaEntry deflate st baseOffset delta oid) := by
  obtain ⟨h1, h2⟩ := hP
  have hproj1 : (writeOfsDeltaEntry deflate st baseOffset delta oid).packOffsets
      = st.packOffsets := rfl
  have hproj2 : (writeOfsDeltaEntry deflate st baseOffset delta oid).entries
      = st.entries ++ [(⟨EntryKind.ofsDelta, oid, st.out.length⟩ : PackEntry)] := rfl
  have hproj3 : (writeOfsDeltaEntry deflate st baseOffset delta oid).processed
      = st.processed := rfl
  constructor
  · rw [hproj1, hproj2, List.filter_append, List.map_append]
    rw [show (((([(⟨EntryKind.ofsDelta, oid, st.out.length⟩ : PackEntry)]).filter
        (fun e => e.kind == EntryKind.full))).map (fun e => (e.oid, e.start)))
      = ([] : List (String × Nat)) from rfl]
    rw [List.append_nil]
    exact h1
  · intro q hq
    rw [hproj1] at hq
    rw [hproj3]
    exact h2 q hq

theorem packStep_inv (deflate : Bytes → Bytes) (sorted : List PackObj)
    (st : PackState) (item : Nat × PackObj) (st2 : PackState)
    (hP : OffsetsInvariant st) (h : packStep deflate sorted st item = .ok st2) :
    OffsetsInvariant st2 := by
  unfold packStep at h
  split at h
  · injection h with h
    rw [← h]
    exact hP
  · next hproc =>
    have hP1 : OffsetsInvariant
        { st with processed := st.processed ++ [item.2.oid] } := by
      obtain ⟨h1, h2⟩ := hP
      exact ⟨h1, fun q hq => List.mem_append_left _ (h2 q hq)⟩
    have hmem1 : item.2.oid ∈ ({ st with processed := st.processed ++ [item.2.oid] }
        : PackState).processed := by
      simp
    have hnew1 : ∀ q ∈ ({ st with processed := st.processed ++ [item.2.oid] }
        : PackState).packOffsets, q.1 ≠ item.2.oid := by
      intro q hq heq
      exact hproc (heq ▸ hP.2 q hq)
    split at h
    next hfd =>
      rename_i base
      split at h
      next hlk =>
        rename_i baseOffset
        cases hcd : createDelta base.1.data item.2.data with
        | error e =>
          rw [hcd, except_error_bind] at h
          exact absurd h (by simp)
        | ok delta =>
          rw [hcd, except_ok_bind] at h
          split at h
          · rw [except_pure_eq_ok] at h
            injection h with h
            rw [← h]
            exact writeOfsDeltaEntry_inv deflate _ _ _ _ hP1
          · rw [except_pure_eq_ok] at h
            injection h with h
            rw [← h]
            exact writeObjectEntry_inv deflate _ _ _ _ hP1 hmem1 hnew1
      next =>
        injection h with h
        rw [← h]
        exact writeObjectEntry_inv deflate _ _ _ _ hP1 hmem1 hnew1
    next =>
      injection h with h
      rw [← h]
      exact writeObjectEntry_inv deflate _ _ _ _ hP1 hmem1 hnew1

/-! ### Claims C7 and C8 -/

/-- C7 (amended): after any successful run of the `_packWithDelta` emission
loop, `packOffsets` holds exactly the objects emitted as full entries,
mapped to their entry-start offsets.  Objects emitted as OFS_DELTA entries
are not recorded (`writeOfsDelta` never touches the map), so only
full-entry objects are available as delta bases for later objects. -/
theorem claim_C7_amended (deflate : Bytes → Bytes) (objects : List PackObj)
    (st : PackState) (h : packCore deflate objects = .ok st) :
    st.packOffsets = (st.entries.filter (fun e => e.kind == EntryKind.full)).map
      (fun e => (e.oid, e.start)) := by
  have hinv : OffsetsInvariant st := by
    refine foldlM_except_inv OffsetsInvariant
      (packStep deflate ((groupObjectsByType objects).flatMap (fun g => sortBySimilarity g.2)))
      (fun s a s2 => packStep_inv deflate _ s a s2)
      (((groupObjectsByType objects).flatMap (fun g => sortBySimilarity g.2)).enum)
      ⟨[0x50, 0x41, 0x43, 0x4b] ++ [0x00, 0x00, 0x00, 0x02] ++
        be32 ((groupObjectsByType objects).flatMap (fun g => sortBySimilarity g.2)).length,
        [], [], [],
        ((groupObjectsByType objects).flatMap (fun g => sortBySimilarity g.2)).length⟩
      st ⟨rfl, by simp⟩ h
  exact hinv.1

/-- C7 amended witness: the empty object list. -/
theorem claim_C7_witness :
    (⟨[0x50, 0x41, 0x43, 0x4b, 0x00, 0x00, 0x00, 0x02, 0x00, 0x00, 0x00, 0x00],
        [], [], [], 0⟩ : PackState).packOffsets =
      ((⟨[0x50, 0x41, 0x43, 0x4b, 0x00, 0x00, 0x00, 0x02, 0x00, 0x00, 0x00, 0x00],
          [], [], [], 0⟩ : PackState).entries.filter
        (fun e => e.kind == EntryKind.full)).map (fun e => (e.oid, e.start)) :=
  claim_C7_amended id []
    ⟨[0x50, 0x41, 0x43, 0x4b, 0x00, 0x00, 0x00, 0x02, 0x00, 0x00, 0x00, 0x00],
      [], [], [], 0⟩ (by decide)

/-- C7 counterexample: two 20-byte blobs with identical payloads.  The
second is emitted as an OFS_DELTA entry (start offset 34), yet the final
`packOffsets` map contains only the first oid: the claim that every emitted
object ends up in the offsets map is false for OFS_DELTA entries. -/
theorem claim_C7_counterexample :
    Except.map PackState.packOffsets (packCore id
      [⟨"aa", "blob", List.replicate 20 0, 0⟩, ⟨"bb", "blob", List.replicate 20 0, 0⟩])
      = .ok [("aa", 12)] ∧
    Except.map PackState.entries (packCore id
      [⟨"aa", "blob", List.replicate 20 0, 0⟩, ⟨"bb", "blob", List.replicate 20 0, 0⟩])
      = .ok [⟨.full, "aa", 12⟩, ⟨.ofsDelta, "bb", 34⟩] := by
  decide

/-- C8: with a repeated oid in the input, the header count field (the number
of sorted objects, 2) disagrees with the number of entries actually emitted
(1, the duplicate being skipped by `processedOids`): the pack header count
does not match the emission. -/
theorem claim_C8_bug :
    Except.map PackState.headerCount (packCore id
      [⟨"aa", "blob", [1, 2, 3], 0⟩, ⟨"aa", "blob", [1, 2, 3], 0⟩]) = .ok 2 ∧
    Except.map PackState.entries (packCore id
      [⟨"aa", "blob", [1, 2, 3], 0⟩, ⟨"aa", "blob", [1, 2, 3], 0⟩])
      = .ok [⟨.full, "aa", 12⟩] := by
  decide

end CfGit
